import Mathlib

/-!
Shallow embedding of the OTPW one-time-password library core (`src/otpw.c`):
the multi-challenge phase of `otpw_prepare` (lines 421-473) and the whole of
`otpw_verify` (lines 494-677), together with theorems checking the claims of
the specification against this embedding.

Conventions of the embedding:
* C strings become `List Char`; byte values are `Char.toNat`.
* The password file is represented by its list of lines, each line a
  `List Char` including the trailing newline character.
* The message digest `md_init/md_add/md_close` lives in `md.c`, which is not
  among the sources; `otpw_verify` is therefore parametrised over the digest
  `md : List Nat → List Nat` (bytes in, 20 bytes out), and a concrete
  stand-in `mdModel` is used for witnesses.
* Filesystem and identity effects are made explicit: `otpw_verify` receives
  a flag `canOpen` (whether `fopen(ch->filename, "r+")` succeeds) and the
  current file lines, and reports in its result whether the lock symlink was
  unlinked, whether the password file was opened, and whether the effective
  uid/gid were restored.
-/

/-- Configured multi-challenge fan-out (`otpw_multi` in `otpw.c`, default 3). -/
def otpw_multi : Nat := 3

/-- Stored hash length in characters (`otpw_hlen` in `otpw.c`, default 12). -/
def otpw_hlen : Nat := 12

/-- Characteristic first line of a password file (`otpw_magic`). -/
def otpw_magic : List Char := "OTPW1\n".toList

/-- Modelled from the spec: `sizeof(ch->challenge)`.  The header `otpw.h` is
not among the sources; spec §3 bounds the challenge string by 80 bytes, so
the buffer holds 81 bytes including the terminating NUL. -/
def challengeSize : Nat := 81

/-- Modelled from the spec: the message digest of `md.c` (not under `src/`)
is specified only as a deterministic fixed-output 20-byte hash of an
arbitrary byte stream (spec §4.A).  This executable stand-in realises that
contract and is used to instantiate the digest parameter in witnesses. -/
def mdModel (msg : List Nat) : List Nat :=
  (List.range 20).map fun i =>
    msg.foldl (fun a b => (a * 31 + b % 256 + i) % 256) (i + 7)

/-- The modified base64 alphabet of `conv_base64` (`otpw.c` lines 200-202). -/
def base64tab : List Char :=
  "ABCDEFGHIJKLMNOPQRSTUVWXYZabcdefghijk%mnopqrstuvwxyz:=23456789+/".toList

/-- `conv_base64` (`otpw.c` lines 198-215): transform the first `6*chars`
bits of the byte string `v` into `chars` characters.  Bit manipulations
`>>`, `<<`, `&` on bytes are rendered as division/modulus arithmetic. -/
def conv_base64 (v : List Nat) (chars : Nat) : List Char :=
  (List.range chars).map fun i =>
    let j := (i / 4) * 3
    let idx :=
      match i % 4 with
      | 0 => v.getD j 0 / 4
      | 1 => (v.getD j 0 % 4) * 16 + v.getD (j + 1) 0 / 16
      | 2 => (v.getD (j + 1) 0 % 16) * 4 + v.getD (j + 2) 0 / 64
      | _ => v.getD (j + 2) 0 % 64
    base64tab.getD idx '?'

/-! ### Input normalisation of `otpw_verify` (lines 539-580) -/

/-- A backspace or delete keystroke: `password[l] == 8 || password[l] == 127`. -/
def isDel (c : Char) : Bool := c.toNat = 8 || c.toNat = 127

/-- Classification of one response character (`otpw.c` lines 554-568):
confusable keystrokes are canonicalised, alphabet characters are copied,
anything else is skipped (`none`). -/
def normChar (c : Char) : Option Char :=
  if c = 'l' || c = '1' || c = '|' then some 'I'
  else if c = '0' then some 'O'
  else if c = '\\' then some '/'
  else if (65 ≤ c.toNat && c.toNat ≤ 90) || (97 ≤ c.toNat && c.toNat ≤ 122) ||
          (50 ≤ c.toNat && c.toNat ≤ 57) ||
          c = ':' || c = '%' || c = '=' || c = '+' || c = '/' then some c
  else none

/-- The right-to-left scan of `otpw_verify` (lines 539-573), operating on the
reversed response.  `fillChars d n rs` fills the last `n` one-time-password
slots from the reversed input `rs`, with `d` pending deletions; it returns
the filled buffer in left-to-right order together with the unconsumed
reversed remainder (whose reversal is the raw prefix password), or `none`
when the input is exhausted before all slots are filled (the "entered
password was too short" case, line 574). -/
def fillChars (d n : Nat) (rs : List Char) : Option (List Char × List Char) :=
  match n, rs with
  | 0, rs => some ([], rs)
  | _ + 1, [] => none
  | n + 1, c :: rest =>
    if isDel c then fillChars (d + 1) (n + 1) rest
    else if 0 < d then fillChars (d - 1) (n + 1) rest
    else
      match normChar c with
      | some c2 =>
        match fillChars 0 n rest with
        | none => none
        | some (buf, rem) => some (buf ++ [c2], rem)
      | none => fillChars 0 (n + 1) rest

/-- The control state of `fillChars` after consuming a given chunk of the
reversed input: `runState d n rs = some (d', n')` when `fillChars` consumes
all of `rs` and is then left with `d'` pending deletions and `n'` unfilled
slots; `none` when slot filling completes strictly inside `rs`. -/
def runState (d n : Nat) (rs : List Char) : Option (Nat × Nat) :=
  match n, rs with
  | n, [] => some (d, n)
  | 0, _ :: _ => none
  | n + 1, c :: rest =>
    if isDel c then runState (d + 1) (n + 1) rest
    else if 0 < d then runState (d - 1) (n + 1) rest
    else
      match normChar c with
      | some _ => runState 0 n rest
      | none => runState 0 (n + 1) rest

/-! ### The challenge handle and `otpw_verify` -/

/-- The challenge handle (`struct challenge`), restricted to the fields that
`otpw_verify` reads. -/
structure Challenge where
  passwords : Nat
  entries : Nat
  challen : Nat
  hlen : Nat
  pwlen : Nat
  remaining : Int
  selection : List Nat
  hash : List (List Char)
  locked : Bool
deriving DecidableEq

/-- Verdicts of `otpw_verify`: `OTPW_OK`, `OTPW_WRONG`, `OTPW_ERROR`. -/
inductive Verdict
  | ok
  | wrong
  | error
deriving DecidableEq

/-- Observable outcome of one `otpw_verify` call: the verdict, the password
file lines after the call, the value of `ch->passwords` on return (cleared
in `cleanup`), whether the lock symlink was unlinked, whether the password
file was opened at all, whether the effective ids were switched and
restored, and the value of `ch->remaining` on return. -/
structure VerifyResult where
  verdict : Verdict
  file : List (List Char)
  passwords : Nat
  lockRemoved : Bool
  openedFile : Bool
  idsRestored : Bool
  remaining : Int
deriving DecidableEq

/-- The hash comparison loop of `otpw_verify` (lines 584-600): for each
entered one-time password, hash prefix+otp, encode with `conv_base64`, and
compare against the hash recorded in the handle. -/
def hashesMatch (md : List Nat → List Nat) (ch : Challenge)
    (pfx buf : List Char) : Bool :=
  (List.range ch.passwords).all fun i =>
    conv_base64
        (md (pfx.map Char.toNat ++
             ((buf.drop (i * ch.pwlen)).take ch.pwlen).map Char.toNat))
        ch.hlen
      == ch.hash.getD i []

/-- The all-hyphens line written over a consumed entry (lines 632-634). -/
def hyphenLine (w : Nat) : List Char := List.replicate w '-' ++ ['\n']

/-- One `sscanf`-style `%d` conversion: skip whitespace, optional sign,
then at least one digit. -/
def isSpaceC (c : Char) : Bool :=
  c == ' ' || c == '\t' || c == '\n' || c == '\x0b' || c == '\x0c' || c == '\r'

/-- Decimal digit test for `%d`. -/
def isDigitC (c : Char) : Bool := 48 ≤ c.toNat && c.toNat ≤ 57

/-- Parse a nonempty digit run. -/
def scanNat (l : List Char) : Option (Nat × List Char) :=
  match l.takeWhile isDigitC with
  | [] => none
  | ds => some (ds.foldl (fun a c => a * 10 + (c.toNat - 48)) 0, l.dropWhile isDigitC)

/-- One `%d` conversion of `sscanf`. -/
def scanInt (l : List Char) : Option (Int × List Char) :=
  match l.dropWhile isSpaceC with
  | '-' :: rest => (scanNat rest).map fun p => (-(p.1 : Int), p.2)
  | '+' :: rest => (scanNat rest).map fun p => ((p.1 : Int), p.2)
  | l2 => (scanNat l2).map fun p => ((p.1 : Int), p.2)

/-- `sscanf(line, "%d%d%d%d\n", ...) == 4`. -/
def scan4 (l : List Char) : Option (Int × Int × Int × Int) :=
  match scanInt l with
  | none => none
  | some (a, r1) =>
    match scanInt r1 with
    | none => none
    | some (b, r2) =>
      match scanInt r2 with
      | none => none
      | some (c, r3) =>
        match scanInt r3 with
        | none => none
        | some (d, _) => some (a, b, c, d)

/-- Header revalidation of `otpw_verify` against the handle (lines 613-624):
compare the parsed header line with the handle's fields and the challenge
buffer bound.  Returns the number of header lines read (2, or 3 when a
comment line is present) or `none` on mismatch. -/
def checkHeaderLine (ch : Challenge) (l : List Char) (k : Nat) : Option Nat :=
  match scan4 l with
  | none => none
  | some (e, c, h, p) =>
    if e = (ch.entries : Int) ∧ p = (ch.pwlen : Int) ∧ h = (ch.hlen : Int) ∧
       c = (ch.challen : Int) ∧ (c + 1) * (otpw_multi : Int) ≤ (challengeSize : Int)
    then some k else none

/-- The magic/comment/header reading of `otpw_verify`'s write phase
(lines 613-624), on the file's lines. -/
def checkHeader (ch : Challenge) (file : List (List Char)) : Option Nat :=
  match file with
  | l1 :: l2 :: rest =>
    if l1 = otpw_magic then
      if l2.head? = some '#' then
        match rest with
        | l3 :: _ => checkHeaderLine ch l3 3
        | [] => none
      else checkHeaderLine ch l2 2
    else none
  | _ => none

/-- The overwrite loop of `otpw_verify` (lines 625-642): walk entry lines
`i = 0 .. n-1`; a selected line is overwritten with hyphens (appending past
end of file when no line is left, as `fputc` would), any other line must be
readable or the loop aborts (`writefail` on unexpected EOF).  Returns the
resulting entry lines, the number of lines cleared (each clearing decrements
`ch->remaining`), and whether the loop completed. -/
def overwriteLoop (sel : List Nat) (w : Nat) :
    Nat → Nat → List (List Char) → List (List Char) × Nat × Bool
  | _, 0, rows => (rows, 0, true)
  | i, n + 1, rows =>
    if i ∈ sel then
      let r := overwriteLoop sel w (i + 1) n rows.tail
      (hyphenLine w :: r.1, r.2.1 + 1, r.2.2)
    else
      match rows with
      | [] => ([], 0, false)
      | row :: rest =>
        let r := overwriteLoop sel w (i + 1) n rest
        (row :: r.1, r.2.1, r.2.2)

/-- The whole consumption pass of `otpw_verify` (lines 625-642), starting
after `k` header lines: new file lines, number of cleared entries, and
whether the loop completed without hitting end of file. -/
def writeBack (ch : Challenge) (file : List (List Char)) (k : Nat) :
    List (List Char) × Nat × Bool :=
  ((file.take k ++
      (overwriteLoop ch.selection (ch.challen + ch.hlen) 0 ch.entries (file.drop k)).1),
   (overwriteLoop ch.selection (ch.challen + ch.hlen) 0 ch.entries (file.drop k)).2)

/-- `otpw_verify` (`otpw.c` lines 494-677).  `password = none` models a NULL
password pointer; `canOpen` models whether `fopen(ch->filename, "r+")`
succeeds; `file` is the password file's current lines. -/
def otpw_verify (md : List Nat → List Nat) (ch : Challenge)
    (password : Option (List Char)) (canOpen : Bool)
    (file : List (List Char)) : VerifyResult :=
  match password with
  | none => ⟨.error, file, 0, ch.locked, false, false, ch.remaining⟩
  | some pw =>
    if ch.passwords < 1 ∨ otpw_multi < ch.passwords then
      ⟨.error, file, 0, ch.locked, false, false, ch.remaining⟩
    else
      match fillChars 0 (ch.passwords * ch.pwlen) pw.reverse with
      | none => ⟨.wrong, file, 0, ch.locked, false, true, ch.remaining⟩
      | some (buf, rem) =>
        if hashesMatch md ch rem.reverse buf then
          if canOpen then
            match checkHeader ch file with
            | none =>
              ⟨.ok, file, 0, if ch.passwords = 1 then false else ch.locked,
               true, true, ch.remaining⟩
            | some k =>
              if (writeBack ch file k).2.2 then
                ⟨.ok, (writeBack ch file k).1, 0, ch.locked, true, true,
                 ch.remaining - ((writeBack ch file k).2.1 : Int)⟩
              else
                ⟨.ok, (writeBack ch file k).1, 0,
                 if ch.passwords = 1 then false else ch.locked,
                 true, true, ch.remaining - ((writeBack ch file k).2.1 : Int)⟩
          else
            ⟨.ok, file, 0, if ch.passwords = 1 then false else ch.locked,
             false, true, ch.remaining⟩
        else ⟨.wrong, file, 0, ch.locked, false, true, ch.remaining⟩

/-! ### The multi-challenge phase of `otpw_prepare` (lines 421-473) -/

/-- Outcome of `readlink(ch->lockfilename, lock, sizeof(lock)-1)`
(line 425): success with the link's target, failure with `ENOENT`, or any
other failure. -/
inductive ReadlinkRes
  | ok (target : List Char)
  | enoent
  | err
deriving DecidableEq

/-- `strncmp(a, b, n) == 0` on NUL-terminated byte strings: comparison stops
at the first differing byte, at a terminating NUL of either string, or after
`n` bytes. -/
def strncmpEq : List Char → List Char → Nat → Bool
  | _, _, 0 => true
  | [], [], _ + 1 => true
  | [], _ :: _, _ + 1 => false
  | _ :: _, [], _ + 1 => false
  | a :: as, b :: bs, n + 1 => a == b && strncmpEq as bs n

/-- The rejection test of the selection scans (lines 453-454 and 457-458):
entry `j` is rejected when consumed (`hbuf[j*hbuflen] == '-'`) or when
`strncmp(hbuf + j*hbuflen + ch->challen, lock, ch->challen) == 0`, i.e. when
the `challen` bytes at offset `challen` into the row (the start of the
stored hash) compare equal to the lock string. -/
def rowBad (hbuf : List Char) (w challen : Nat) (lock : List Char) (j : Nat) : Bool :=
  hbuf.getD (j * w) '-' == '-' || strncmpEq (hbuf.drop (j * w + challen)) lock challen

/-- Number of entries that the selection scans would accept. -/
def goodCount (hbuf : List Char) (w challen : Nat) (lock : List Char)
    (entries : Nat) : Nat :=
  ((List.range entries).filter fun j => !rowBad hbuf w challen lock j).length

/-- The random scan (lines 449-455): repeatedly draw `j = rng t % entries`
while the entry is rejected and `count++ < 2*entries`.  The fuel argument is
an upper bound on the remaining iterations; called with fuel
`2*entries + 1 - count` it never runs out before the `count` test stops the
loop.  Returns the last drawn `j` and the next position in the `rng`
stream. -/
def randomScanAux (rng : Nat → Nat) (entries : Nat) (bad : Nat → Bool) :
    Nat → Nat → Nat → Nat × Nat
  | 0, t, _ => (rng t % entries, t + 1)
  | fuel + 1, t, count =>
    let j := rng t % entries
    if bad j ∧ count < 2 * entries then
      randomScanAux rng entries bad fuel (t + 1) (count + 1)
    else (j, t + 1)

/-- The random scan, starting with `count = 0`. -/
def randomScan (rng : Nat → Nat) (entries : Nat) (bad : Nat → Bool) (t : Nat) :
    Nat × Nat :=
  randomScanAux rng entries bad (2 * entries + 1) t 0

/-- The fallback scan (lines 456-459): `while (bad j) j = (j+1) % entries`.
The C loop is unbounded; `fuel = entries` steps suffice to visit every
index, so a `none` result faithfully models non-termination of the C
loop. -/
def fallbackScan (bad : Nat → Bool) (entries : Nat) : Nat → Nat → Option Nat
  | _, 0 => none
  | j, fuel + 1 =>
    if bad j then fallbackScan bad entries ((j + 1) % entries) fuel else some j

/-- Mutable state of the multi-challenge selection loop (lines 445-473):
the challenge string built so far, `ch->passwords`, the selections and
recorded hashes, the in-memory table `hbuf` (selected rows are marked with
`-`), and the position in the random stream. -/
structure MultiState where
  challenge : List Char
  passwords : Nat
  selection : List Nat
  hashes : List (List Char)
  hbuf : List Char
  t : Nat
deriving DecidableEq

/-- The selection loop body (lines 445-473), with fuel `otpw_multi -
passwords` (the loop adds one password per iteration, so this fuel is
exact).  A `none` result propagates non-termination of the fallback
scan. -/
def selectLoopAux (rng : Nat → Nat) (entries w challen hlen : Nat)
    (lock : List Char) : Nat → MultiState → Option MultiState
  | 0, s => some s
  | fuel + 1, s =>
    if s.passwords < otpw_multi ∧ s.challenge.length < challengeSize - challen - 2 then
      let bad := rowBad s.hbuf w challen lock
      let jt := randomScan rng entries bad s.t
      match fallbackScan bad entries jt.1 entries with
      | none => none
      | some j =>
        selectLoopAux rng entries w challen hlen lock fuel
          { challenge := s.challenge ++ (if s.passwords = 0 then [] else ['/']) ++
              (s.hbuf.drop (j * w)).take challen
            passwords := s.passwords + 1
            selection := s.selection ++ [j]
            hashes := s.hashes ++ [(s.hbuf.drop (j * w + challen)).take hlen]
            hbuf := s.hbuf.set (j * w) '-'
            t := jt.2 }
    else some s

/-- The selection loop (lines 445-473). -/
def selectLoop (rng : Nat → Nat) (entries w challen hlen : Nat)
    (lock : List Char) (s : MultiState) : Option MultiState :=
  selectLoopAux rng entries w challen hlen lock (otpw_multi - s.passwords) s

/-- Result of the multi-challenge phase: the challenge string (empty on
failure), `ch->passwords`, the selected indices and their hashes, and
whether the lock symlink was unlinked as corrupt (line 432). -/
structure PrepOut where
  challenge : List Char
  passwords : Nat
  selection : List Nat
  hashes : List (List Char)
  unlinked : Bool
deriving DecidableEq

/-- Lines 440-473 of `otpw_prepare`: the remaining-passwords precondition
for a multi challenge followed by the selection loop, entered with a lock
string `lock` and knowing whether a corrupt lock was unlinked. -/
def multiSelect (rng : Nat → Nat) (entries challen hlen : Nat) (hbuf : List Char)
    (remaining : Nat) (lock : List Char) (unl : Bool) : Option PrepOut :=
  if remaining < otpw_multi + 1 ∨ remaining < 10 then some ⟨[], 0, [], [], unl⟩
  else
    match selectLoop rng entries (challen + hlen) challen hlen lock
        ⟨[], 0, [], [], hbuf, 0⟩ with
    | none => none
    | some s => some ⟨s.challenge, s.passwords, s.selection, s.hashes, unl⟩

/-- Lines 421-473 of `otpw_prepare`: the point reached when the lock retry
budget is exhausted.  `ch->challenge` has been cleared (line 422); the lock
symlink's target is read.  On a read failure other than `ENOENT` the
function fails (`goto cleanup`, empty challenge).  On success with a target
whose length is not `challen`, the corrupt lock is unlinked and the phase
continues with that target as the lock string.  On `ENOENT` the stack
buffer `lock` is left uninitialised; its residual contents are the
parameter `lockInit`. -/
def multiPhase (rng : Nat → Nat) (entries challen hlen : Nat) (hbuf : List Char)
    (remaining : Nat) (rl : ReadlinkRes) (lockInit : List Char) : Option PrepOut :=
  match rl with
  | .err => some ⟨[], 0, [], [], false⟩
  | .enoent => multiSelect rng entries challen hlen hbuf remaining lockInit false
  | .ok t => multiSelect rng entries challen hlen hbuf remaining t (t.length != challen)

/-- Header validation bounds of `otpw_prepare` (lines 336-344), as accepted
(the negation of the rejection test). -/
def validHeader (entries challen hlen pwlen : Nat) : Prop :=
  1 ≤ entries ∧ entries ≤ 9999 ∧ 1 ≤ challen ∧
  (challen + 1) * otpw_multi ≤ challengeSize ∧
  4 ≤ pwlen ∧ pwlen ≤ 999 ∧ hlen = otpw_hlen

/-- Count, among entry indices `i, i+1, …, i+n-1`, those that appear in the
selection list (the `clear` test of lines 626-629, accumulated). -/
def countSelIn (sel : List Nat) : Nat → Nat → Nat
  | _, 0 => 0
  | i, n + 1 => (if i ∈ sel then 1 else 0) + countSelIn sel (i + 1) n

/-! ### Concrete fixtures used in witnesses and counterexamples -/

/-- Byte list of a string, as fed to the digest. -/
def strBytes (s : String) : List Nat := s.toList.map Char.toNat

/-- A degenerate random stream: every draw selects index 0. -/
def rngZero : Nat → Nat := fun _ => 0

/-- Concrete table of 10 live rows, `challen = 3`, `hlen = 12`: row 0 has
label `AAA`, rows 1-9 have label `BBB`, every row's stored hash is
`XYZXYZXYZXYZ`. -/
def hbufLocked : List Char :=
  "AAAXYZXYZXYZXYZ".toList ++ (List.replicate 9 "BBBXYZXYZXYZXYZ".toList).flatten

/-- A held lock target equal to row 0's label. -/
def lockAAA : List Char := "AAA".toList

/-- Concrete table of 10 live rows all of whose stored hashes begin with
`XYZ` (the bytes the selection scans compare against the lock). -/
def hbufAllMatch : List Char := (List.replicate 10 "AAAXYZXYZXYZXYZ".toList).flatten

/-- A held lock target equal to the first three hash bytes of every row of
`hbufAllMatch`. -/
def lockXYZ : List Char := "XYZ".toList

/-- A 2-entry handle whose first recorded hash is the digest of the response
`abcd` (empty prefix password, one-time password `abcd`). -/
def chBasic : Challenge :=
  { passwords := 1, entries := 2, challen := 3, hlen := 12, pwlen := 4,
    remaining := 2, selection := [0],
    hash := [conv_base64 (mdModel (strBytes "abcd")) 12], locked := true }

/-- The matching on-disk file for `chBasic`. -/
def fileBasic : List (List Char) :=
  [otpw_magic, "2 3 12 4\n".toList,
   "AAA".toList ++ conv_base64 (mdModel (strBytes "abcd")) 12 ++ ['\n'],
   "BBBCCCCCCCCCCCC\n".toList]

/-- A handle expecting prefix `X` and one-time password `abcd`. -/
def chPrefX : Challenge :=
  { passwords := 1, entries := 1, challen := 3, hlen := 12, pwlen := 4,
    remaining := 1, selection := [0],
    hash := [conv_base64 (mdModel (strBytes "Xabcd")) 12], locked := false }

/-- A handle expecting prefix `I` and one-time password `abcd`. -/
def chPrefI : Challenge :=
  { passwords := 1, entries := 1, challen := 3, hlen := 12, pwlen := 4,
    remaining := 1, selection := [0],
    hash := [conv_base64 (mdModel (strBytes "Iabcd")) 12], locked := false }

/-- A handle expecting prefix `p` and one-time password `IO/t`. -/
def chPrefP : Challenge :=
  { passwords := 1, entries := 1, challen := 3, hlen := 12, pwlen := 4,
    remaining := 1, selection := [0],
    hash := [conv_base64 (mdModel (strBytes "pIO/t")) 12], locked := false }

/-- The lock string that the selection scans actually compare, resolved
from the `readlink` outcome as `otpw_prepare` does (lines 425-437): the
link's target on success, the uninitialised buffer contents otherwise. -/
def lockTarget : ReadlinkRes → List Char → List Char
  | .ok t, _ => t
  | _, lockInit => lockInit

/-- Two characters are confusable-equivalent when they are classified
identically by the normalisation of lines 539-568: both or neither are
BS/DEL, and both canonicalise to the same character (so `l`, `1`, `|`, `I`
are pairwise equivalent, as are `0`, `O` and `\`, `/`). -/
def confusEquiv (a b : Char) : Prop := isDel a = isDel b ∧ normChar a = normChar b

/-! ### Helper lemmas about `otpw_verify` -/

/-- On every branch of `otpw_verify` whose verdict is not `OK`, the file is
returned unchanged: `fopen(ch->filename, "r+")` happens only after every
hash comparison has succeeded. -/
theorem otpw_verify_ok_or_file_eq (md : List Nat → List Nat) (ch : Challenge)
    (password : Option (List Char)) (canOpen : Bool) (file : List (List Char)) :
    (otpw_verify md ch password canOpen file).verdict = .ok ∨
      (otpw_verify md ch password canOpen file).file = file := by
  unfold otpw_verify
  split
  · exact Or.inr rfl
  · split
    · exact Or.inr rfl
    · split
      · exact Or.inr rfl
      · split
        · split
          · split
            · exact Or.inl rfl
            · split
              · exact Or.inl rfl
              · exact Or.inl rfl
          · exact Or.inl rfl
        · exact Or.inr rfl

/-- Every branch of `otpw_verify` clears `ch->passwords` (the `cleanup`
label, line 670). -/
theorem otpw_verify_passwords_zero (md : List Nat → List Nat) (ch : Challenge)
    (password : Option (List Char)) (canOpen : Bool) (file : List (List Char)) :
    (otpw_verify md ch password canOpen file).passwords = 0 := by
  unfold otpw_verify
  split
  · rfl
  · split
    · rfl
    · split
      · rfl
      · split
        · split
          · split
            · rfl
            · split
              · rfl
              · rfl
          · rfl
        · rfl

/-- Claim C3: for every `otpw_verify` call that returns `WRONG` or `ERROR`,
the password file's contents after the call are byte-identical to its
contents before the call (the file is opened for writing only after every
hash comparison has succeeded). -/
theorem c3_wrong_error_file_unchanged (md : List Nat → List Nat) (ch : Challenge)
    (password : Option (List Char)) (canOpen : Bool) (file : List (List Char))
    (h : (otpw_verify md ch password canOpen file).verdict = .wrong ∨
         (otpw_verify md ch password canOpen file).verdict = .error) :
    (otpw_verify md ch password canOpen file).file = file := by
  rcases otpw_verify_ok_or_file_eq md ch password canOpen file with hok | heq
  · rcases h with h | h <;> rw [hok] at h <;> exact Verdict.noConfusion h
  · exact heq

/-- Witness for C3 at a concrete wrong-password call. -/
theorem c3_witness :
    (otpw_verify mdModel chBasic (some "abce".toList) true fileBasic).file = fileBasic :=
  c3_wrong_error_file_unchanged mdModel chBasic (some "abce".toList) true fileBasic
    (Or.inl (by decide))

/-- Claim C9: after any `otpw_verify` call returns, the handle's `passwords`
counter is 0, so a subsequent `otpw_verify` call on the same handle (one
with `passwords = 0`) returns `ERROR` without opening, reading or modifying
the password file. -/
theorem c9_handle_single_use (md : List Nat → List Nat) (ch : Challenge)
    (password : Option (List Char)) (canOpen : Bool) (file : List (List Char)) :
    (otpw_verify md ch password canOpen file).passwords = 0 ∧
    (ch.passwords = 0 →
      (otpw_verify md ch password canOpen file).verdict = .error ∧
      (otpw_verify md ch password canOpen file).file = file ∧
      (otpw_verify md ch password canOpen file).openedFile = false) := by
  refine ⟨otpw_verify_passwords_zero md ch password canOpen file, fun h0 => ?_⟩
  cases password with
  | none => exact ⟨rfl, rfl, rfl⟩
  | some pw =>
    have hc : ch.passwords < 1 ∨ otpw_multi < ch.passwords := Or.inl (by omega)
    dsimp only [otpw_verify]
    rw [if_pos hc]
    exact ⟨rfl, rfl, rfl⟩

/-- Witness for C9 on a spent handle. -/
theorem c9_witness :
    (otpw_verify mdModel { chBasic with passwords := 0 } (some "abcd".toList) true
        fileBasic).passwords = 0 ∧
    (otpw_verify mdModel { chBasic with passwords := 0 } (some "abcd".toList) true
        fileBasic).verdict = .error := by
  obtain ⟨h1, h2⟩ := c9_handle_single_use mdModel { chBasic with passwords := 0 }
      (some "abcd".toList) true fileBasic
  exact ⟨h1, (h2 rfl).1⟩

/-- Claim C8: when every entered password hash-matches but reopening the
password file read-write or revalidating its header against the handle
fails, `otpw_verify` still returns `OK`; with `passwords = 1` the lock
symlink is deliberately not unlinked (lines 645-651), while the effective
uid/gid are still restored (lines 662-668). -/
theorem c8_writefail_still_ok (md : List Nat → List Nat) (ch : Challenge)
    (pw buf rem : List Char) (canOpen : Bool) (file : List (List Char))
    (h1 : 1 ≤ ch.passwords) (h2 : ch.passwords ≤ otpw_multi)
    (hfill : fillChars 0 (ch.passwords * ch.pwlen) pw.reverse = some (buf, rem))
    (hmatch : hashesMatch md ch rem.reverse buf = true)
    (hfail : canOpen = false ∨ checkHeader ch file = none) :
    (otpw_verify md ch (some pw) canOpen file).verdict = .ok ∧
    (ch.passwords = 1 → (otpw_verify md ch (some pw) canOpen file).lockRemoved = false) ∧
    (otpw_verify md ch (some pw) canOpen file).idsRestored = true := by
  have hcond : ¬(ch.passwords < 1 ∨ otpw_multi < ch.passwords) := by omega
  dsimp only [otpw_verify]
  rw [if_neg hcond, hfill]
  dsimp only
  rw [if_pos hmatch]
  rcases hfail with hco | hchk
  · subst hco
    rw [if_neg (Bool.false_ne_true)]
    exact ⟨rfl, fun hp => by simp [hp], rfl⟩
  · cases canOpen with
    | false =>
      rw [if_neg (Bool.false_ne_true)]
      exact ⟨rfl, fun hp => by simp [hp], rfl⟩
    | true =>
      rw [if_pos rfl, hchk]
      exact ⟨rfl, fun hp => by simp [hp], rfl⟩

/-- Witness for C8: correct password, reopen fails, lock retained. -/
theorem c8_witness :
    (otpw_verify mdModel chBasic (some "abcd".toList) false fileBasic).verdict = .ok ∧
    (otpw_verify mdModel chBasic (some "abcd".toList) false fileBasic).lockRemoved = false := by
  obtain ⟨ha, hb, _⟩ := c8_writefail_still_ok mdModel chBasic "abcd".toList
      ['a', 'b', 'c', 'd'] [] false fileBasic (by decide) (by decide) (by decide)
      (by decide) (Or.inl rfl)
  exact ⟨ha, hb (by decide)⟩

/-- Claim C1: at this concrete input — 10 live rows whose stored hashes all
begin `XYZ`, row 0 labelled `AAA`, a fresh lock held by another session with
target `AAA` — the selection phase selects entry 0 first, although the
`challen` bytes of entry 0's challenge label are exactly the held label:
lines 453-454 and 457-458 compare `hbuf + j*hbuflen + ch->challen` (the
stored hash) against the lock target rather than the label at
`hbuf + j*hbuflen`, so the concurrently locked entry is not excluded. -/
theorem c1_locked_entry_selected :
    (multiPhase rngZero 10 3 12 hbufLocked 10 (.ok lockAAA) []).map
        (fun o => o.selection) = some [0, 1, 2] ∧
      (hbufLocked.drop (0 * 15)).take 3 = lockAAA ∧
      hbufLocked.getD (0 * 15) '-' ≠ '-' := by
  refine ⟨by decide, by decide, by decide⟩

/-- Counterexample to claim C4 as stated: inserting a single whitespace
character into the response — here a space at the front, which lands in the
raw prefix-password region — changes the verdict from `OK` to `WRONG`,
because the prefix bytes are fed to the digest unnormalised (line 587). -/
theorem c4_insertion_changes_verdict :
    (otpw_verify mdModel chPrefX (some "Xabcd".toList) false []).verdict = .ok ∧
    (otpw_verify mdModel chPrefX (some " Xabcd".toList) false []).verdict = .wrong := by
  refine ⟨by decide, by decide⟩

/-- Counterexample to claim C5 as stated: substituting `I ↦ l` in the
prefix-password region of an accepted response — `Iabcd` to `labcd`, the
prefix being `I` — changes the verdict from `OK` to `WRONG`, because the
prefix bytes are hashed without confusable canonicalisation. -/
theorem c5_substitution_in_pfx_breaks :
    (otpw_verify mdModel chPrefI (some "Iabcd".toList) false []).verdict = .ok ∧
    (otpw_verify mdModel chPrefI (some "labcd".toList) false []).verdict = .wrong := by
  refine ⟨by decide, by decide⟩

/-- Counterexample to claim C6 as stated: with `multi = 3`, `remaining = 10`
lies in the claimed failing range `[2, max(multi,10)]`, yet the code's test
`remaining < multi+1 || remaining < 10` (line 440) passes and the
multi-challenge fallback succeeds with a non-empty challenge. -/
theorem c6_boundary_remaining_ten :
    (multiPhase rngZero 10 3 12 hbufLocked 10 (.ok lockAAA) []).map
        (fun o => (o.challenge, o.passwords)) = some ("AAA/BBB/BBB".toList, 3) ∧
      10 = max otpw_multi 10 := by
  refine ⟨by decide, by decide⟩

/-- Claim C6 (amended): with a fresh lock held by another session, for every
`remaining` in `[2, max(multi+1,10) - 1]` the multi-challenge fallback fails
and the returned challenge is empty, because multi-challenge requires
`remaining ≥ max(multi+1, 10)` (line 440). -/
theorem c6_small_remaining_fails (rng : Nat → Nat) (entries challen hlen : Nat)
    (hbuf : List Char) (remaining : Nat) (rl : ReadlinkRes) (lockInit : List Char)
    (h2 : 2 ≤ remaining) (hlt : remaining < max (otpw_multi + 1) 10) :
    (multiPhase rng entries challen hlen hbuf remaining rl lockInit).map
      (fun o => (o.challenge, o.passwords)) = some ([], 0) := by
  have h10 : max (otpw_multi + 1) 10 = 10 := by decide
  have hr : remaining < otpw_multi + 1 ∨ remaining < 10 := Or.inr (h10 ▸ hlt)
  rcases rl with t | _ | _
  · dsimp only [multiPhase, multiSelect]
    rw [if_pos hr]
    rfl
  · dsimp only [multiPhase, multiSelect]
    rw [if_pos hr]
    rfl
  · rfl

/-- Witness for the amended C6 at `remaining = 5`. -/
theorem c6_witness :
    (multiPhase rngZero 10 3 12 hbufLocked 5 (.ok lockAAA) []).map
      (fun o => (o.challenge, o.passwords)) = some ([], 0) :=
  c6_small_remaining_fails rngZero 10 3 12 hbufLocked 5 (.ok lockAAA) []
    (by decide) (by decide)

/-- Counterexample to claim C7 as stated: with an existing lock whose target
has length 4 ≠ challen = 3, `otpw_prepare` removes the corrupt lock but then
*does* attempt the multi challenge, and here succeeds with a non-empty
challenge, instead of failing with an empty one. -/
theorem c7_wrong_length_attempts_multi :
    (multiPhase rngZero 10 3 12 hbufLocked 10 (.ok "AAAA".toList) []).map
      (fun o => (o.challenge, o.passwords, o.unlinked)) =
      some ("AAA/BBB/BBB".toList, 3, true) := by decide

/-- Claim C7 (amended): after the lock retry budget is exhausted, a
`readlink` failure other than `ENOENT` makes `otpw_prepare` fail with an
empty challenge, without removing the lock and without attempting a multi
challenge (lines 434-437); a successfully read target whose length is not
`challen` makes it unlink the corrupt lock and then *proceed* to the
multi-challenge attempt with that target as the held string (lines
426-433). -/
theorem c7_lock_read_handling (rng : Nat → Nat) (entries challen hlen : Nat)
    (hbuf : List Char) (remaining : Nat) (t lockInit : List Char)
    (hlen2 : t.length ≠ challen) :
    multiPhase rng entries challen hlen hbuf remaining .err lockInit =
      some ⟨[], 0, [], [], false⟩ ∧
    multiPhase rng entries challen hlen hbuf remaining (.ok t) lockInit =
      multiSelect rng entries challen hlen hbuf remaining t true := by
  refine ⟨rfl, ?_⟩
  dsimp only [multiPhase]
  have hb : (t.length != challen) = true := by simpa using hlen2
  rw [hb]

/-- Witness for the amended C7 at a concrete wrong-length target. -/
theorem c7_witness :
    multiPhase rngZero 10 3 12 hbufLocked 10 .err [] = some ⟨[], 0, [], [], false⟩ ∧
    multiPhase rngZero 10 3 12 hbufLocked 10 (.ok "AAAA".toList) [] =
      multiSelect rngZero 10 3 12 hbufLocked 10 "AAAA".toList true :=
  c7_lock_read_handling rngZero 10 3 12 hbufLocked 10 "AAAA".toList [] (by decide)

/-- Counterexample to claim C10 as stated: a table of 10 live entries all of
whose compared bytes equal the held string `XYZ` passes every header and
line validation, yet no entry is acceptable to the scans (`goodCount = 0`)
and the unbounded fallback scan of lines 457-459 cycles forever — the
embedding's fuelled scan exhausts a full cycle and the phase diverges
(`none`). -/
theorem c10_all_matching_diverges :
    multiPhase rngZero 10 3 12 hbufAllMatch 10 (.ok lockXYZ) [] = none ∧
      goodCount hbufAllMatch 15 3 lockXYZ 10 = 0 := by
  refine ⟨by decide, by decide⟩

/-! ### Normalisation lemmas for claims C4 and C5 -/

/-- One-step unfolding of `fillChars` on a cons cell. -/
theorem fillChars_cons (d m : Nat) (c : Char) (rest : List Char) :
    fillChars d (m + 1) (c :: rest) =
      if isDel c then fillChars (d + 1) (m + 1) rest
      else if 0 < d then fillChars (d - 1) (m + 1) rest
      else
        match normChar c with
        | some c2 =>
          match fillChars 0 m rest with
          | none => none
          | some (buf, rem) => some (buf ++ [c2], rem)
        | none => fillChars 0 (m + 1) rest := rfl

/-- One-step unfolding of `runState` on a cons cell. -/
theorem runState_cons (d m : Nat) (c : Char) (rest : List Char) :
    runState d (m + 1) (c :: rest) =
      if isDel c then runState (d + 1) (m + 1) rest
      else if 0 < d then runState (d - 1) (m + 1) rest
      else
        match normChar c with
        | some _ => runState 0 m rest
        | none => runState 0 (m + 1) rest := rfl

/-- `runState` on the empty chunk. -/
theorem runState_nil (d n : Nat) : runState d n [] = some (d, n) := by
  cases n <;> rfl

/-- If the normalisation scan crosses the chunk `B` reaching state `(d, n)`,
then the scan result on `B ++ X` is determined by the scan from `(d, n)` on
`X`: two continuations with equal scans give equal total scans. -/
theorem fill_append_congr (B : List Char) : ∀ (d0 n0 d n : Nat),
    runState d0 n0 B = some (d, n) →
    ∀ X Y : List Char, fillChars d n X = fillChars d n Y →
    fillChars d0 n0 (B ++ X) = fillChars d0 n0 (B ++ Y) := by
  induction B with
  | nil =>
    intro d0 n0 d n hrun X Y hXY
    simp only [runState_nil, Option.some.injEq, Prod.mk.injEq] at hrun
    obtain ⟨rfl, rfl⟩ := hrun
    exact hXY
  | cons c B ih =>
    intro d0 n0 d n hrun X Y hXY
    match n0 with
    | 0 => exact absurd hrun (by simp [runState])
    | m + 1 =>
      rw [runState_cons] at hrun
      rw [List.cons_append, List.cons_append, fillChars_cons, fillChars_cons]
      by_cases hdel : isDel c = true
      · rw [if_pos hdel] at hrun
        rw [if_pos hdel, if_pos hdel]
        exact ih _ _ _ _ hrun X Y hXY
      · rw [if_neg hdel] at hrun
        rw [if_neg hdel, if_neg hdel]
        by_cases hd : 0 < d0
        · rw [if_pos hd] at hrun
          rw [if_pos hd, if_pos hd]
          exact ih _ _ _ _ hrun X Y hXY
        · rw [if_neg hd] at hrun
          rw [if_neg hd, if_neg hd]
          cases hnc : normChar c with
          | some c2 =>
            rw [hnc] at hrun
            dsimp only at hrun ⊢
            rw [ih _ _ _ _ hrun X Y hXY]
          | none =>
            rw [hnc] at hrun
            dsimp only at hrun ⊢
            exact ih _ _ _ _ hrun X Y hXY

/-- A run of BS/DEL characters consumed with at least one slot unfilled
simply increases the pending-deletion counter. -/
theorem fill_dels (es : List Char) : ∀ d n, (∀ c ∈ es, isDel c = true) → 1 ≤ n →
    ∀ X, fillChars d n (es ++ X) = fillChars (d + es.length) n X := by
  induction es with
  | nil => intro d n _ _ X; simp
  | cons c es ih =>
    intro d n h hn X
    obtain ⟨m, rfl⟩ : ∃ m, n = m + 1 := ⟨n - 1, by omega⟩
    rw [List.cons_append, fillChars_cons, if_pos (h c (by simp))]
    rw [ih (d + 1) (m + 1) (fun c2 hc => h c2 (by simp [hc])) (by omega) X]
    have harith : d + 1 + es.length = d + (c :: es).length := by
      simp only [List.length_cons]; omega
    rw [harith]

/-- Non-BS/DEL characters are silently consumed while deletions are
pending. -/
theorem fill_cancel (ts : List Char) : ∀ d n, (∀ c ∈ ts, isDel c = false) →
    ts.length ≤ d → 1 ≤ n →
    ∀ X, fillChars d n (ts ++ X) = fillChars (d - ts.length) n X := by
  induction ts with
  | nil => intro d n _ _ _ X; simp
  | cons c ts ih =>
    intro d n h hd hn X
    simp only [List.length_cons] at hd
    obtain ⟨m, rfl⟩ : ∃ m, n = m + 1 := ⟨n - 1, by omega⟩
    rw [List.cons_append, fillChars_cons, if_neg (by simp [h c (by simp)]),
        if_pos (by omega : 0 < d)]
    rw [ih (d - 1) (m + 1) (fun c2 hc => h c2 (by simp [hc])) (by omega) (by omega) X]
    have harith : d - 1 - ts.length = d - (c :: ts).length := by
      simp only [List.length_cons]; omega
    rw [harith]

/-- Unclassified non-BS/DEL characters (whitespace, controls) are skipped
when no deletions are pending and at least one slot is unfilled. -/
theorem fill_ws (ws : List Char) : ∀ n, (∀ c ∈ ws, isDel c = false ∧ normChar c = none) →
    1 ≤ n → ∀ X, fillChars 0 n (ws ++ X) = fillChars 0 n X := by
  induction ws with
  | nil => intro n _ _ X; simp
  | cons c ws ih =>
    intro n h hn X
    obtain ⟨m, rfl⟩ : ∃ m, n = m + 1 := ⟨n - 1, by omega⟩
    rw [List.cons_append, fillChars_cons, if_neg (by simp [(h c (by simp)).1]),
        if_neg (by omega : ¬0 < 0), (h c (by simp)).2]
    exact ih (m + 1) (fun c2 hc => h c2 (by simp [hc])) (by omega) X

/-- `otpw_verify` depends on the typed response only through the
normalisation result (the raw bytes fed to the digest are exactly the
unconsumed remainder). -/
theorem otpw_verify_fill_congr (md : List Nat → List Nat) (ch : Challenge)
    (canOpen : Bool) (file : List (List Char)) (pw1 pw2 : List Char)
    (h : fillChars 0 (ch.passwords * ch.pwlen) pw1.reverse =
         fillChars 0 (ch.passwords * ch.pwlen) pw2.reverse) :
    otpw_verify md ch (some pw1) canOpen file =
      otpw_verify md ch (some pw2) canOpen file := by
  dsimp only [otpw_verify]
  rw [h]

/-- Claim C4 (amended): inserting extra keystrokes into the portion of the
response that the right-to-left normalisation consumes for one-time-password
slots — reached here in state `(d, n)` with at least one slot still unfilled
— preserves the verdict of `otpw_verify`, provided the insertion is either
(a) a self-cancelled typo block: non-BS/DEL characters followed by equally
many BS/DEL characters, or (b) whitespace/control characters other than BS
and DEL, inserted at a point where no deletions are pending (`d = 0`).
Insertions into the raw prefix-password region, bare BS/DEL characters, and
whitespace inserted under a pending deletion do change the verdict
(see the counterexample). -/
theorem c4_transparent_insertion (md : List Nat → List Nat) (ch : Challenge)
    (canOpen : Bool) (file : List (List Char)) (A B S : List Char) (d n : Nat)
    (hrun : runState 0 (ch.passwords * ch.pwlen) B = some (d, n))
    (hn : 1 ≤ n)
    (hS : (∃ ts ds, S = ts ++ ds ∧ (∀ c ∈ ts, isDel c = false) ∧
             (∀ c ∈ ds, isDel c = true) ∧ ds.length = ts.length) ∨
          (d = 0 ∧ ∀ c ∈ S, isDel c = false ∧ normChar c = none)) :
    otpw_verify md ch (some (A.reverse ++ S ++ B.reverse)) canOpen file =
      otpw_verify md ch (some (A.reverse ++ B.reverse)) canOpen file := by
  apply otpw_verify_fill_congr
  have h1 : (A.reverse ++ S ++ B.reverse).reverse = B ++ (S.reverse ++ A) := by
    simp [List.reverse_append, List.append_assoc]
  have h2 : (A.reverse ++ B.reverse).reverse = B ++ A := by
    simp [List.reverse_append]
  rw [h1, h2]
  apply fill_append_congr B 0 (ch.passwords * ch.pwlen) d n hrun
  rcases hS with ⟨ts, ds, rfl, hts, hds, hl⟩ | ⟨hd0, hws⟩
  · have hrev : (ts ++ ds).reverse ++ A = ds.reverse ++ (ts.reverse ++ A) := by
      simp [List.reverse_append, List.append_assoc]
    rw [hrev]
    rw [fill_dels ds.reverse d n (fun c hc => hds c (List.mem_reverse.mp hc)) hn]
    rw [fill_cancel ts.reverse (d + ds.reverse.length) n
        (fun c hc => hts c (List.mem_reverse.mp hc))
        (by simp only [List.length_reverse]; omega) hn]
    have harith : d + ds.reverse.length - ts.reverse.length = d := by
      simp only [List.length_reverse]; omega
    rw [harith]
  · subst hd0
    exact fill_ws S.reverse n (fun c hc => hws c (List.mem_reverse.mp hc)) hn A

/-- Witness for the amended C4: inserting the typo block `y`+BS inside the
one-time-password region of `Xabcd` leaves the whole verify result
unchanged. -/
theorem c4_witness :
    otpw_verify mdModel chPrefX
        (some ("baX".toList.reverse ++ ['y', '\x08'] ++ "dc".toList.reverse)) false [] =
      otpw_verify mdModel chPrefX
        (some ("baX".toList.reverse ++ "dc".toList.reverse)) false [] :=
  c4_transparent_insertion mdModel chPrefX false [] "baX".toList "dc".toList
    ['y', '\x08'] 0 2 (by decide) (by decide)
    (Or.inl ⟨['y'], ['\x08'], rfl, by decide, by decide, rfl⟩)

/-- Substituting confusable-equivalent characters inside a chunk that the
normalisation consumes without completing leaves the scan unchanged. -/
theorem fill_confus (B B' : List Char) (h : List.Forall₂ confusEquiv B B') :
    ∀ d0 n0, runState d0 n0 B ≠ none →
    ∀ X, fillChars d0 n0 (B ++ X) = fillChars d0 n0 (B' ++ X) := by
  induction h with
  | nil => intro d0 n0 _ X; rfl
  | @cons a b B B' hab h2 ih =>
    intro d0 n0 hrun X
    obtain ⟨hdel, hnorm⟩ := hab
    match n0 with
    | 0 => exact absurd (by simp [runState]) hrun
    | m + 1 =>
      rw [runState_cons] at hrun
      rw [List.cons_append, List.cons_append, fillChars_cons, fillChars_cons,
          ← hdel, ← hnorm]
      by_cases hd1 : isDel a = true
      · rw [if_pos hd1] at hrun
        rw [if_pos hd1, if_pos hd1]
        exact ih _ _ hrun X
      · rw [if_neg hd1] at hrun
        rw [if_neg hd1, if_neg hd1]
        by_cases hd : 0 < d0
        · rw [if_pos hd] at hrun
          rw [if_pos hd, if_pos hd]
          exact ih _ _ hrun X
        · rw [if_neg hd] at hrun
          rw [if_neg hd, if_neg hd]
          cases hnc : normChar a with
          | some c2 =>
            rw [hnc] at hrun
            dsimp only at hrun ⊢
            rw [ih _ _ hrun X]
          | none =>
            rw [hnc] at hrun
            dsimp only at hrun ⊢
            exact ih _ _ hrun X

/-- Claim C5 (amended): replacing characters of an accepted response by
confusable-equivalent ones (`{l,1,|} ↔ I`, `{0} ↔ O`, `{\} ↔ /`), inside
the portion consumed for one-time-password slots, still yields `OK` from
`otpw_verify`.  A substitution in the raw prefix-password region changes
the hashed bytes and is not covered (see the counterexample). -/
theorem c5_confusable_substitution (md : List Nat → List Nat) (ch : Challenge)
    (canOpen : Bool) (file : List (List Char)) (A B B' : List Char) (st : Nat × Nat)
    (hconf : List.Forall₂ confusEquiv B B')
    (hrun : runState 0 (ch.passwords * ch.pwlen) B = some st)
    (hok : (otpw_verify md ch (some (A.reverse ++ B.reverse)) canOpen file).verdict = .ok) :
    (otpw_verify md ch (some (A.reverse ++ B'.reverse)) canOpen file).verdict = .ok := by
  have heq : otpw_verify md ch (some (A.reverse ++ B'.reverse)) canOpen file =
      otpw_verify md ch (some (A.reverse ++ B.reverse)) canOpen file := by
    apply otpw_verify_fill_congr
    have h1 : (A.reverse ++ B'.reverse).reverse = B' ++ A := by
      simp [List.reverse_append]
    have h2 : (A.reverse ++ B.reverse).reverse = B ++ A := by
      simp [List.reverse_append]
    rw [h1, h2]
    exact (fill_confus B B' hconf 0 (ch.passwords * ch.pwlen)
      (by rw [hrun]; exact Option.some_ne_none st) A).symm
  rw [heq]
  exact hok

/-- Witness for the amended C5: the scenario of spec §8 S3 — expected
prefix `p` and one-time password `IO/t`, typed as `pl0\t`. -/
theorem c5_witness :
    (otpw_verify mdModel chPrefP
        (some ("p".toList.reverse ++ ['t', '\\', '0', 'l'].reverse)) false []).verdict = .ok :=
  c5_confusable_substitution mdModel chPrefP false [] "p".toList
    ['t', '/', 'O', 'I'] ['t', '\\', '0', 'l'] (0, 0)
    (.cons ⟨by decide, by decide⟩ (.cons ⟨by decide, by decide⟩
      (.cons ⟨by decide, by decide⟩ (.cons ⟨by decide, by decide⟩ .nil))))
    (by decide) (by decide)

/-! ### The consumption pass, for claim C2 -/

/-- `countSelIn` over an empty selection list. -/
theorem countSelIn_nil : ∀ (i n : Nat), countSelIn [] i n = 0 := by
  intro i n
  induction n generalizing i with
  | zero => rfl
  | succ n ih =>
    have h1 : countSelIn [] i (n + 1) =
        (if i ∈ ([] : List Nat) then 1 else 0) + countSelIn [] (i + 1) n := rfl
    rw [h1, if_neg (by simp), ih (i + 1)]

/-- Splitting one selected index out of `countSelIn`: an index not repeated
in the tail contributes exactly one count when it lies in the window. -/
theorem countSelIn_cons (a : Nat) (tl : List Nat) (ha : a ∉ tl) :
    ∀ (n i : Nat), countSelIn (a :: tl) i n =
      countSelIn tl i n + (if i ≤ a ∧ a < i + n then 1 else 0) := by
  intro n
  induction n with
  | zero =>
    intro i
    have h0 : countSelIn (a :: tl) i 0 = 0 := rfl
    have h0b : countSelIn tl i 0 = 0 := rfl
    rw [h0, h0b, if_neg (by omega)]
  | succ n ih =>
    intro i
    have h1 : countSelIn (a :: tl) i (n + 1) =
        (if i ∈ a :: tl then 1 else 0) + countSelIn (a :: tl) (i + 1) n := rfl
    have h2 : countSelIn tl i (n + 1) =
        (if i ∈ tl then 1 else 0) + countSelIn tl (i + 1) n := rfl
    rw [h1, h2, ih (i + 1)]
    by_cases hia : i = a
    · subst hia
      rw [if_pos (List.mem_cons_self i tl), if_neg ha,
          if_neg (by omega : ¬(i + 1 ≤ i ∧ i < i + 1 + n)),
          if_pos (⟨Nat.le_refl i, by omega⟩ : i ≤ i ∧ i < i + (n + 1))]
      omega
    · have hmem : (i ∈ a :: tl) ↔ (i ∈ tl) := by
        simp [List.mem_cons, hia]
      have hwin : (i + 1 ≤ a ∧ a < i + 1 + n) ↔ (i ≤ a ∧ a < i + (n + 1)) := by
        constructor <;> rintro ⟨u, v⟩ <;> exact ⟨by omega, by omega⟩
      rw [if_congr hmem rfl rfl, if_congr hwin rfl rfl]
      omega

/-- For a duplicate-free selection list whose members all lie below `n`,
the count over the window `[0, n)` is the number of selected entries. -/
theorem countSelIn_eq_length (sel : List Nat) : sel.Nodup → ∀ n, (∀ s ∈ sel, s < n) →
    countSelIn sel 0 n = sel.length := by
  induction sel with
  | nil => intro _ n _; exact countSelIn_nil 0 n
  | cons a tl ih =>
    intro hnd n hb
    have ha : a ∉ tl := (List.nodup_cons.mp hnd).1
    rw [countSelIn_cons a tl ha n 0,
        ih (List.nodup_cons.mp hnd).2 n (fun s hs => hb s (by simp [hs])),
        if_pos ⟨Nat.zero_le a, by have := hb a (by simp); omega⟩]
    simp [List.length_cons]

/-- Full characterisation of the overwrite loop when at least `n` entry
lines are present: it completes, preserves the number of lines, clears
exactly the selected lines in its window, and counts them. -/
theorem overwriteLoop_spec (sel : List Nat) (w : Nat) :
    ∀ (n i : Nat) (rows : List (List Char)), n ≤ rows.length →
      (overwriteLoop sel w i n rows).2.2 = true ∧
      (overwriteLoop sel w i n rows).1.length = rows.length ∧
      (overwriteLoop sel w i n rows).2.1 = countSelIn sel i n ∧
      (∀ (m : Nat) (d : List Char), (overwriteLoop sel w i n rows).1.getD m d =
        if m < n ∧ (i + m) ∈ sel then hyphenLine w else rows.getD m d) := by
  intro n
  induction n with
  | zero =>
    intro i rows _
    refine ⟨rfl, rfl, rfl, fun m d => ?_⟩
    have h0 : (overwriteLoop sel w i 0 rows).1 = rows := rfl
    rw [h0, if_neg (fun hc => Nat.not_lt_zero m hc.1)]
  | succ n ih =>
    intro i rows hlen
    obtain ⟨row, rest, rfl⟩ : ∃ row rest, rows = row :: rest := by
      cases rows with
      | nil => simp at hlen
      | cons a b => exact ⟨a, b, rfl⟩
    have hrec := ih (i + 1) rest (by simpa using hlen)
    obtain ⟨f1, f2, f3, f4⟩ := hrec
    by_cases hi : i ∈ sel
    · have hstep : overwriteLoop sel w i (n + 1) (row :: rest) =
          (hyphenLine w :: (overwriteLoop sel w (i + 1) n rest).1,
           (overwriteLoop sel w (i + 1) n rest).2.1 + 1,
           (overwriteLoop sel w (i + 1) n rest).2.2) := by
        conv_lhs => rw [overwriteLoop]
        exact if_pos hi
      refine ⟨?_, ?_, ?_, ?_⟩
      · rw [hstep]; exact f1
      · rw [hstep]; simp only [List.length_cons, f2]
      · rw [hstep]
        have hc : countSelIn sel i (n + 1) =
            (if i ∈ sel then 1 else 0) + countSelIn sel (i + 1) n := rfl
        dsimp only
        rw [f3, hc, if_pos hi]
        omega
      · intro m d
        rw [hstep]
        match m with
        | 0 =>
          rw [List.getD_cons_zero,
              if_pos ⟨Nat.succ_pos n, by simpa using hi⟩]
        | m + 1 =>
          rw [List.getD_cons_succ, List.getD_cons_succ, f4 m d]
          have hcond : (m < n ∧ (i + 1 + m) ∈ sel) ↔
              (m + 1 < n + 1 ∧ (i + (m + 1)) ∈ sel) := by
            constructor <;> rintro ⟨u, v⟩
            · exact ⟨by omega, by rwa [show i + (m + 1) = i + 1 + m by omega]⟩
            · exact ⟨by omega, by rwa [show i + 1 + m = i + (m + 1) by omega]⟩
          rw [if_congr hcond rfl rfl]
    · have hstep : overwriteLoop sel w i (n + 1) (row :: rest) =
          (row :: (overwriteLoop sel w (i + 1) n rest).1,
           (overwriteLoop sel w (i + 1) n rest).2.1,
           (overwriteLoop sel w (i + 1) n rest).2.2) := by
        conv_lhs => rw [overwriteLoop]
        exact if_neg hi
      refine ⟨?_, ?_, ?_, ?_⟩
      · rw [hstep]; exact f1
      · rw [hstep]; simp only [List.length_cons, f2]
      · rw [hstep]
        have hc : countSelIn sel i (n + 1) =
            (if i ∈ sel then 1 else 0) + countSelIn sel (i + 1) n := rfl
        dsimp only
        rw [f3, hc, if_neg hi]
        omega
      · intro m d
        rw [hstep]
        match m with
        | 0 =>
          rw [List.getD_cons_zero, List.getD_cons_zero,
              if_neg (fun hc => hi (by simpa using hc.2))]
        | m + 1 =>
          rw [List.getD_cons_succ, List.getD_cons_succ, f4 m d]
          have hcond : (m < n ∧ (i + 1 + m) ∈ sel) ↔
              (m + 1 < n + 1 ∧ (i + (m + 1)) ∈ sel) := by
            constructor <;> rintro ⟨u, v⟩
            · exact ⟨by omega, by rwa [show i + (m + 1) = i + 1 + m by omega]⟩
            · exact ⟨by omega, by rwa [show i + 1 + m = i + (m + 1) by omega]⟩
          rw [if_congr hcond rfl rfl]

/-- `checkHeaderLine` returns the line count it was given. -/
theorem checkHeaderLine_some (ch : Challenge) (l : List Char) (k k2 : Nat)
    (h : checkHeaderLine ch l k = some k2) : k2 = k := by
  unfold checkHeaderLine at h
  split at h
  · exact absurd h (by simp)
  · split at h
    · injection h with h2
      exact h2.symm
    · exact absurd h (by simp)

/-- One-step unfolding of `checkHeader` on a file with at least two lines. -/
theorem checkHeader_cons (ch : Challenge) (l1 l2 : List Char) (rest : List (List Char)) :
    checkHeader ch (l1 :: l2 :: rest) =
      if l1 = otpw_magic then
        if l2.head? = some '#' then
          match rest with
          | l3 :: _ => checkHeaderLine ch l3 3
          | [] => none
        else checkHeaderLine ch l2 2
      else none := rfl

/-- A successful header revalidation consumes 2 or 3 existing lines. -/
theorem checkHeader_le_length (ch : Challenge) (file : List (List Char)) (k : Nat)
    (h : checkHeader ch file = some k) : k ≤ file.length := by
  match file with
  | [] => exact Option.noConfusion h
  | [l1] => exact Option.noConfusion h
  | l1 :: l2 :: rest =>
    rw [checkHeader_cons] at h
    split at h
    · split at h
      · cases rest with
        | nil => exact Option.noConfusion h
        | cons l3 rest2 =>
          have hk := checkHeaderLine_some ch l3 3 k h
          simp only [List.length_cons]
          omega
      · have hk := checkHeaderLine_some ch l2 2 k h
        simp only [List.length_cons]
        omega
    · exact Option.noConfusion h

/-- `getD` below a `take` cut. -/
theorem getD_take_lt (l : List (List Char)) : ∀ (k i : Nat), i < k →
    ∀ d, (l.take k).getD i d = l.getD i d := by
  induction l with
  | nil => intro k i _ d; simp
  | cons x l ih =>
    intro k i hik d
    match k, i with
    | k + 1, 0 => rfl
    | k + 1, i + 1 =>
      rw [List.take_succ_cons, List.getD_cons_succ, List.getD_cons_succ]
      exact ih k i (by omega) d

/-- `getD` through a `drop`. -/
theorem getD_drop_add (l : List (List Char)) : ∀ (k i : Nat) (d : List Char),
    (l.drop k).getD i d = l.getD (k + i) d := by
  induction l with
  | nil => intro k i d; simp
  | cons x l ih =>
    intro k i d
    match k with
    | 0 => rw [Nat.zero_add]; rfl
    | k + 1 =>
      rw [List.drop_succ_cons, ih k i d,
          show k + 1 + i = (k + i) + 1 by omega, List.getD_cons_succ]

/-- Claim C2: for every `otpw_verify` call that returns `OK` against a file
whose header revalidates against the handle (`checkHeader` succeeds after
`k` header lines) and that still holds all `entries` entry lines, with the
handle's selection list duplicate-free, in range, and of length `passwords`
(as `otpw_prepare` guarantees): every selected index is, in the post-verify
file, the line of exactly `challen + hlen` hyphens followed by a newline;
every other line — other entry lines, header lines, and lines beyond the
entry region — is byte-unchanged; and `remaining` decreases by exactly
`passwords`. -/
theorem c2_ok_consumes_selected (md : List Nat → List Nat) (ch : Challenge)
    (pw : List Char) (file : List (List Char)) (k : Nat)
    (hhdr : checkHeader ch file = some k)
    (hrows : ch.entries ≤ (file.drop k).length)
    (hnd : ch.selection.Nodup)
    (hsel : ∀ s ∈ ch.selection, s < ch.entries)
    (hcnt : ch.selection.length = ch.passwords)
    (hok : (otpw_verify md ch (some pw) true file).verdict = .ok) :
    (otpw_verify md ch (some pw) true file).file.length = file.length ∧
    (∀ s ∈ ch.selection,
      (otpw_verify md ch (some pw) true file).file.getD (k + s) [] =
        hyphenLine (ch.challen + ch.hlen)) ∧
    (∀ i, i < ch.entries → i ∉ ch.selection →
      (otpw_verify md ch (some pw) true file).file.getD (k + i) [] =
        file.getD (k + i) []) ∧
    (∀ i, i < k ∨ k + ch.entries ≤ i →
      (otpw_verify md ch (some pw) true file).file.getD i [] = file.getD i []) ∧
    (otpw_verify md ch (some pw) true file).remaining =
      ch.remaining - (ch.passwords : Int) := by
  have hk := checkHeader_le_length ch file k hhdr
  obtain ⟨f1, f2, f3, f4⟩ := overwriteLoop_spec ch.selection (ch.challen + ch.hlen)
    ch.entries 0 (file.drop k) hrows
  have htk : (file.take k).length = k := by
    rw [List.length_take]
    omega
  dsimp only [otpw_verify] at hok ⊢
  by_cases hpar : ch.passwords < 1 ∨ otpw_multi < ch.passwords
  · rw [if_pos hpar] at hok
    exact absurd hok (by simp)
  rw [if_neg hpar] at hok ⊢
  cases hfc : fillChars 0 (ch.passwords * ch.pwlen) pw.reverse with
  | none =>
    rw [hfc] at hok
    exact absurd hok (by simp)
  | some br =>
    obtain ⟨buf, rem⟩ := br
    rw [hfc] at hok
    dsimp only at hok ⊢
    cases hm : hashesMatch md ch rem.reverse buf with
    | false =>
      rw [hm] at hok
      exact absurd hok (by simp)
    | true =>
      have htt : true = true := rfl
      rw [if_pos htt, if_pos htt, hhdr]
      dsimp only
      have hwb : (writeBack ch file k).2.2 = true := f1
      rw [if_pos hwb]
      dsimp only [writeBack]
      refine ⟨?_, ?_, ?_, ?_, ?_⟩
      · rw [List.length_append, htk, f2, List.length_drop]
        omega
      · intro s hs
        rw [List.getD_append_right _ _ _ _ (by omega), htk,
            show k + s - k = s by omega, f4 s []]
        rw [if_pos ⟨hsel s hs, by simpa using hs⟩]
      · intro i hilt hni
        rw [List.getD_append_right _ _ _ _ (by omega), htk,
            show k + i - k = i by omega, f4 i [],
            if_neg (fun hc => hni (by simpa using hc.2)), getD_drop_add]
      · intro i hie
        rcases hie with hlt | hge
        · rw [List.getD_append _ _ _ _ (by omega), getD_take_lt file k i hlt]
        · rw [List.getD_append_right _ _ _ _ (by omega), htk, f4 (i - k) [],
              if_neg (fun hc => by omega), getD_drop_add,
              show k + (i - k) = i by omega]
      · rw [f3, countSelIn_eq_length ch.selection hnd ch.entries hsel, hcnt]

/-- Witness for C2 at a concrete successful verify. -/
theorem c2_witness :
    (otpw_verify mdModel chBasic (some "abcd".toList) true fileBasic).file.getD (2 + 0) [] =
      hyphenLine (chBasic.challen + chBasic.hlen) ∧
    (otpw_verify mdModel chBasic (some "abcd".toList) true fileBasic).remaining =
      chBasic.remaining - (chBasic.passwords : Int) := by
  obtain ⟨_, hsel2, _, _, hrem⟩ := c2_ok_consumes_selected mdModel chBasic "abcd".toList
    fileBasic 2 (by decide) (by decide) (by decide) (by decide) (by decide) (by decide)
  exact ⟨hsel2 0 (by decide), hrem⟩

/-! ### Termination of the selection scans, for claim C10 -/

/-- Setting an element below the index read leaves `getD` at that index. -/
theorem getD_set_self' (l : List Char) : ∀ (i : Nat) (x d : Char), i < l.length →
    (l.set i x).getD i d = x := by
  induction l with
  | nil => intro i x d h; simp at h
  | cons a l ih =>
    intro i x d h
    match i with
    | 0 => rfl
    | i + 1 =>
      show (a :: l.set i x).getD (i + 1) d = x
      rw [List.getD_cons_succ]
      exact ih i x d (by simpa using h)

/-- Setting one position does not change `getD` at another. -/
theorem getD_set_ne' (l : List Char) : ∀ (i j : Nat) (x d : Char), i ≠ j →
    (l.set i x).getD j d = l.getD j d := by
  induction l with
  | nil => intro i j x d _; simp
  | cons a l ih =>
    intro i j x d hne
    match i, j with
    | 0, 0 => exact absurd rfl hne
    | 0, j + 1 =>
      show (x :: l).getD (j + 1) d = (a :: l).getD (j + 1) d
      rw [List.getD_cons_succ, List.getD_cons_succ]
    | i + 1, 0 => rfl
    | i + 1, j + 1 =>
      show (a :: l.set i x).getD (j + 1) d = (a :: l).getD (j + 1) d
      rw [List.getD_cons_succ, List.getD_cons_succ]
      exact ih i j x d (by omega)

/-- A write strictly before the drop point vanishes after the drop. -/
theorem drop_set_lt' (l : List Char) : ∀ (p a : Nat) (x : Char), p < a →
    (l.set p x).drop a = l.drop a := by
  induction l with
  | nil => intro p a x _; simp
  | cons c l ih =>
    intro p a x hpa
    match p, a with
    | p, 0 => exact absurd hpa (by omega)
    | 0, a + 1 =>
      show (x :: l).drop (a + 1) = (c :: l).drop (a + 1)
      rw [List.drop_succ_cons, List.drop_succ_cons]
    | p + 1, a + 1 =>
      show (c :: l.set p x).drop (a + 1) = (c :: l).drop (a + 1)
      rw [List.drop_succ_cons, List.drop_succ_cons]
      exact ih p a x (by omega)

/-- A write at or beyond the drop point commutes with the drop. -/
theorem drop_set_ge' (l : List Char) : ∀ (p a : Nat) (x : Char), a ≤ p →
    (l.set p x).drop a = (l.drop a).set (p - a) x := by
  induction l with
  | nil => intro p a x _; simp
  | cons c l ih =>
    intro p a x hap
    match a with
    | 0 => rw [Nat.sub_zero]; rfl
    | a + 1 =>
      obtain ⟨p2, rfl⟩ : ∃ p2, p = p2 + 1 := ⟨p - 1, by omega⟩
      show (c :: l.set p2 x).drop (a + 1) = ((c :: l).drop (a + 1)).set (p2 + 1 - (a + 1)) x
      rw [List.drop_succ_cons, List.drop_succ_cons,
          show p2 + 1 - (a + 1) = p2 - a by omega]
      exact ih p2 a x (by omega)

/-- A write at or beyond the take cut vanishes inside the take. -/
theorem take_set_ge' (l : List Char) : ∀ (p a : Nat) (x : Char), a ≤ p →
    (l.set p x).take a = l.take a := by
  induction l with
  | nil => intro p a x _; simp
  | cons c l ih =>
    intro p a x hap
    match a with
    | 0 => rfl
    | a + 1 =>
      obtain ⟨p2, rfl⟩ : ∃ p2, p = p2 + 1 := ⟨p - 1, by omega⟩
      show (c :: l.set p2 x).take (a + 1) = (c :: l).take (a + 1)
      rw [List.take_succ_cons, List.take_succ_cons, ih p2 a x (by omega)]

/-- `strncmpEq` inspects at most its first `n` characters. -/
theorem strncmpEq_take (as : List Char) : ∀ (bs : List Char) (n : Nat),
    strncmpEq (as.take n) bs n = strncmpEq as bs n := by
  induction as with
  | nil => intro bs n; simp
  | cons a as ih =>
    intro bs n
    match n, bs with
    | 0, bs => cases bs <;> rfl
    | n + 1, [] => rfl
    | n + 1, b :: bs =>
      show strncmpEq (a :: as.take n) (b :: bs) (n + 1) = _
      have h1 : strncmpEq (a :: as.take n) (b :: bs) (n + 1) =
          (a == b && strncmpEq (as.take n) bs n) := rfl
      have h2 : strncmpEq (a :: as) (b :: bs) (n + 1) =
          (a == b && strncmpEq as bs n) := rfl
      rw [h1, h2, ih bs n]

/-- Marking row `j` makes it rejected. -/
theorem rowBad_set_self (hbuf : List Char) (w challen : Nat) (lock : List Char)
    (j : Nat) (h : j * w < hbuf.length) :
    rowBad (hbuf.set (j * w) '-') w challen lock j = true := by
  unfold rowBad
  rw [getD_set_self' hbuf (j * w) '-' '-' h]
  simp

/-- Marking row `j` leaves the rejection test of any other row unchanged,
as long as `challen ≤ hlen` keeps the compared bytes inside each row. -/
theorem rowBad_set_other (hbuf : List Char) (entries challen hlen : Nat)
    (lock : List Char) (j x : Nat) (hne : x ≠ j) (hj : j < entries) (hx : x < entries)
    (hch1 : 1 ≤ challen) (hch : challen ≤ hlen)
    (hblen : hbuf.length = entries * (challen + hlen)) :
    rowBad (hbuf.set (j * (challen + hlen)) '-') (challen + hlen) challen lock x
      = rowBad hbuf (challen + hlen) challen lock x := by
  have hwpos : 0 < challen + hlen := by omega
  unfold rowBad
  rw [getD_set_ne' hbuf (j * (challen + hlen)) (x * (challen + hlen)) '-' '-'
      (fun heq => hne (Nat.eq_of_mul_eq_mul_right hwpos heq).symm)]
  congr 1
  rcases Nat.lt_trichotomy j x with h1 | h1 | h1
  · have hm1 : (j + 1) * (challen + hlen) ≤ x * (challen + hlen) :=
      Nat.mul_le_mul_right _ (by omega)
    have hm2 : (j + 1) * (challen + hlen) = j * (challen + hlen) + (challen + hlen) :=
      Nat.succ_mul j (challen + hlen)
    rw [drop_set_lt' hbuf (j * (challen + hlen)) (x * (challen + hlen) + challen) '-'
        (by omega)]
  · exact absurd h1.symm hne
  · have hm1 : (x + 1) * (challen + hlen) ≤ j * (challen + hlen) :=
      Nat.mul_le_mul_right _ (by omega)
    have hm2 : (x + 1) * (challen + hlen) = x * (challen + hlen) + (challen + hlen) :=
      Nat.succ_mul x (challen + hlen)
    rw [drop_set_ge' hbuf (j * (challen + hlen)) (x * (challen + hlen) + challen) '-'
        (by omega)]
    rw [← strncmpEq_take ((hbuf.drop (x * (challen + hlen) + challen)).set
          (j * (challen + hlen) - (x * (challen + hlen) + challen)) '-') lock challen,
        take_set_ge' (hbuf.drop (x * (challen + hlen) + challen))
          (j * (challen + hlen) - (x * (challen + hlen) + challen)) challen '-'
          (by omega),
        strncmpEq_take]

/-- Flipping exactly one list member from accepted to rejected lowers the
accepted count by one. -/
theorem filter_length_flip (j : Nat) : ∀ (l : List Nat) (bad bad2 : Nat → Bool),
    (∀ x ∈ l, x ≠ j → bad2 x = bad x) → bad2 j = true → bad j = false →
    l.Nodup → j ∈ l →
    (l.filter fun x => !bad2 x).length + 1 = (l.filter fun x => !bad x).length := by
  intro l
  induction l with
  | nil => intro bad bad2 _ _ _ _ hj; simp at hj
  | cons a tl ih =>
    intro bad bad2 hcong hb2 hb hnd hj
    by_cases haj : a = j
    · subst haj
      have hatl : a ∉ tl := (List.nodup_cons.mp hnd).1
      have hft : List.filter (fun x => !bad2 x) tl = List.filter (fun x => !bad x) tl := by
        apply List.filter_congr
        intro x hx
        rw [hcong x (by simp [hx]) (fun h => hatl (h ▸ hx))]
      rw [List.filter_cons, List.filter_cons, hb2, hb, hft]
      simp
    · have hjtl : j ∈ tl := by
        rcases List.mem_cons.mp hj with h | h
        · exact absurd h.symm haj
        · exact h
      have hba : bad2 a = bad a := hcong a (by simp) (fun h => haj h)
      have hrec := ih bad bad2 (fun x hx hxj => hcong x (by simp [hx]) hxj) hb2 hb
        (List.nodup_cons.mp hnd).2 hjtl
      rw [List.filter_cons, List.filter_cons, hba]
      by_cases hbv : (!bad a) = true
      · rw [if_pos hbv, if_pos hbv]
        simp only [List.length_cons]
        omega
      · rw [if_neg hbv, if_neg hbv]
        exact hrec

/-- A positive accepted count yields an acceptable row index. -/
theorem goodCount_pos (hbuf : List Char) (w challen : Nat) (lock : List Char)
    (entries : Nat) (h : 0 < goodCount hbuf w challen lock entries) :
    ∃ j, j < entries ∧ rowBad hbuf w challen lock j = false := by
  unfold goodCount at h
  rw [List.length_pos] at h
  obtain ⟨j, hj⟩ := List.exists_mem_of_ne_nil _ h
  have hm := List.mem_filter.mp hj
  exact ⟨j, List.mem_range.mp hm.1, by simpa using hm.2⟩

/-- Marking an acceptable row lowers the accepted count by exactly one. -/
theorem goodCount_set (hbuf : List Char) (entries challen hlen : Nat) (lock : List Char)
    (j : Nat) (hj : j < entries) (hch1 : 1 ≤ challen) (hch : challen ≤ hlen)
    (hblen : hbuf.length = entries * (challen + hlen))
    (hgoodj : rowBad hbuf (challen + hlen) challen lock j = false) :
    goodCount (hbuf.set (j * (challen + hlen)) '-') (challen + hlen) challen lock entries + 1
      = goodCount hbuf (challen + hlen) challen lock entries := by
  have hjw : j * (challen + hlen) < hbuf.length := by
    have hm1 : (j + 1) * (challen + hlen) ≤ entries * (challen + hlen) :=
      Nat.mul_le_mul_right _ (by omega)
    have hm2 : (j + 1) * (challen + hlen) = j * (challen + hlen) + (challen + hlen) :=
      Nat.succ_mul j (challen + hlen)
    omega
  unfold goodCount
  exact filter_length_flip j (List.range entries) _ _
    (fun x hx hxj => rowBad_set_other hbuf entries challen hlen lock j x hxj hj
      (List.mem_range.mp hx) hch1 hch hblen)
    (rowBad_set_self hbuf (challen + hlen) challen lock j hjw)
    hgoodj (List.nodup_range entries) (List.mem_range.mpr hj)

/-- The random scan always returns an index below `entries`. -/
theorem randomScanAux_fst_lt (rng : Nat → Nat) (entries : Nat) (bad : Nat → Bool)
    (he : 0 < entries) : ∀ (fuel t count : Nat),
    (randomScanAux rng entries bad fuel t count).1 < entries := by
  intro fuel
  induction fuel with
  | zero => intro t c; exact Nat.mod_lt _ he
  | succ fuel ih =>
    intro t c
    show (if bad (rng t % entries) ∧ c < 2 * entries then
        randomScanAux rng entries bad fuel (t + 1) (c + 1)
      else (rng t % entries, t + 1)).1 < entries
    split
    · exact ih (t + 1) (c + 1)
    · exact Nat.mod_lt _ he

/-- The fallback scan finds an acceptable row within one full cycle when one
exists ahead of the start index. -/
theorem fallbackScan_some (bad : Nat → Bool) (entries : Nat) :
    ∀ (fuel j : Nat), j < entries →
    (∃ k, k < fuel ∧ bad ((j + k) % entries) = false) →
    ∃ j2, fallbackScan bad entries j fuel = some j2 ∧ bad j2 = false ∧ j2 < entries := by
  intro fuel
  induction fuel with
  | zero =>
    intro j hj h
    obtain ⟨k, hk, _⟩ := h
    omega
  | succ fuel ih =>
    intro j hj h
    obtain ⟨k, hk, hbad⟩ := h
    cases hb : bad j with
    | false =>
      refine ⟨j, ?_, hb, hj⟩
      show (if bad j then fallbackScan bad entries ((j + 1) % entries) fuel else some j) =
        some j
      rw [hb, if_neg Bool.false_ne_true]
    | true =>
      have hk0 : k ≠ 0 := by
        intro h0
        subst h0
        rw [Nat.add_zero, Nat.mod_eq_of_lt hj] at hbad
        rw [hbad] at hb
        exact Bool.noConfusion hb
      obtain ⟨k2, rfl⟩ : ∃ k2, k = k2 + 1 := ⟨k - 1, by omega⟩
      have he : 0 < entries := by omega
      have hnext : bad (((j + 1) % entries + k2) % entries) = false := by
        rw [Nat.mod_add_mod, show j + 1 + k2 = j + (k2 + 1) by omega]
        exact hbad
      have hstep : fallbackScan bad entries j (fuel + 1) =
          fallbackScan bad entries ((j + 1) % entries) fuel := by
        show (if bad j then fallbackScan bad entries ((j + 1) % entries) fuel else some j) =
          fallbackScan bad entries ((j + 1) % entries) fuel
        rw [hb, if_pos rfl]
      rw [hstep]
      exact ih ((j + 1) % entries) (Nat.mod_lt _ he) ⟨k2, by omega, hnext⟩

/-- From any start index there is an acceptable row within `entries` steps
of the cyclic successor walk, as soon as one acceptable row exists. -/
theorem exists_good_step (bad : Nat → Bool) (entries j j2 : Nat)
    (hj : j < entries) (hj2 : j2 < entries) (hgood : bad j2 = false) :
    ∃ k, k < entries ∧ bad ((j + k) % entries) = false := by
  rcases le_or_lt j j2 with hle | hlt
  · refine ⟨j2 - j, by omega, ?_⟩
    rw [show j + (j2 - j) = j2 by omega, Nat.mod_eq_of_lt hj2]
    exact hgood
  · refine ⟨j2 + entries - j, by omega, ?_⟩
    rw [show j + (j2 + entries - j) = j2 + entries by omega, Nat.add_mod_right,
        Nat.mod_eq_of_lt hj2]
    exact hgood

/-- One-step unfolding of the selection loop. -/
theorem selectLoopAux_succ (rng : Nat → Nat) (entries w challen hlen : Nat)
    (lock : List Char) (fuel : Nat) (s : MultiState) :
    selectLoopAux rng entries w challen hlen lock (fuel + 1) s =
      if s.passwords < otpw_multi ∧ s.challenge.length < challengeSize - challen - 2 then
        match fallbackScan (rowBad s.hbuf w challen lock) entries
            (randomScan rng entries (rowBad s.hbuf w challen lock) s.t).1 entries with
        | none => none
        | some j =>
          selectLoopAux rng entries w challen hlen lock fuel
            { challenge := s.challenge ++ (if s.passwords = 0 then [] else ['/']) ++
                (s.hbuf.drop (j * w)).take challen
              passwords := s.passwords + 1
              selection := s.selection ++ [j]
              hashes := s.hashes ++ [(s.hbuf.drop (j * w + challen)).take hlen]
              hbuf := s.hbuf.set (j * w) '-'
              t := (randomScan rng entries (rowBad s.hbuf w challen lock) s.t).2 }
      else some s := rfl

/-- While at least `otpw_multi - passwords` rows remain acceptable, the
selection loop cannot reach the diverging fallback scan: each iteration
selects an acceptable row and marks it, lowering the acceptable count by
exactly one. -/
theorem selectLoopAux_ne_none (rng : Nat → Nat) (entries challen hlen : Nat)
    (lock : List Char) (he : 1 ≤ entries) (hch1 : 1 ≤ challen) (hch : challen ≤ hlen) :
    ∀ (fuel : Nat) (s : MultiState),
      s.hbuf.length = entries * (challen + hlen) →
      otpw_multi - s.passwords ≤ fuel →
      otpw_multi - s.passwords ≤
        goodCount s.hbuf (challen + hlen) challen lock entries →
      selectLoopAux rng entries (challen + hlen) challen hlen lock fuel s ≠ none := by
  intro fuel
  induction fuel with
  | zero => intro s _ _ _ h; exact Option.noConfusion h
  | succ fuel ih =>
    intro s hsl hfuel hgood
    rw [selectLoopAux_succ]
    split
    case isFalse => exact fun h => Option.noConfusion h
    case isTrue hcond =>
      obtain ⟨hp, _⟩ := hcond
      have hg1 : 0 < goodCount s.hbuf (challen + hlen) challen lock entries := by omega
      obtain ⟨j2, hj2, hgood2⟩ :=
        goodCount_pos s.hbuf (challen + hlen) challen lock entries hg1
      have hj0 : (randomScan rng entries
          (rowBad s.hbuf (challen + hlen) challen lock) s.t).1 < entries :=
        randomScanAux_fst_lt rng entries _ (by omega) _ _ _
      obtain ⟨j, hfs, hjgood, hjlt⟩ :=
        fallbackScan_some (rowBad s.hbuf (challen + hlen) challen lock) entries entries
          (randomScan rng entries (rowBad s.hbuf (challen + hlen) challen lock) s.t).1
          hj0 (exists_good_step _ entries _ j2 hj0 hj2 hgood2)
      rw [hfs]
      have hgs := goodCount_set s.hbuf entries challen hlen lock j hjlt hch1 hch hsl hjgood
      apply ih
      · show (s.hbuf.set (j * (challen + hlen)) '-').length = entries * (challen + hlen)
        rw [List.length_set]
        exact hsl
      · show otpw_multi - (s.passwords + 1) ≤ fuel
        omega
      · show otpw_multi - (s.passwords + 1) ≤
          goodCount (s.hbuf.set (j * (challen + hlen)) '-') (challen + hlen) challen
            lock entries
        omega

/-- Claim C10 (amended): the multi-challenge selection phase of
`otpw_prepare` terminates — the unbounded fallback scan never cycles
forever — provided `1 ≤ challen ≤ hlen` (so the compared bytes stay within
the row), the buffer spans `entries` rows, and at least `otpw_multi` rows
are live with compared bytes differing from the held string.  Without that
supply of acceptable rows the fallback scan cycles forever (see the
counterexample). -/
theorem c10_terminates_with_enough_good (rng : Nat → Nat) (entries challen hlen : Nat)
    (hbuf : List Char) (remaining : Nat) (rl : ReadlinkRes) (lockInit : List Char)
    (he : 1 ≤ entries) (hch1 : 1 ≤ challen) (hch : challen ≤ hlen)
    (hblen : hbuf.length = entries * (challen + hlen))
    (hgood : otpw_multi ≤
      goodCount hbuf (challen + hlen) challen (lockTarget rl lockInit) entries) :
    multiPhase rng entries challen hlen hbuf remaining rl lockInit ≠ none := by
  have key : ∀ (lock : List Char) (unl : Bool),
      otpw_multi ≤ goodCount hbuf (challen + hlen) challen lock entries →
      multiSelect rng entries challen hlen hbuf remaining lock unl ≠ none := by
    intro lock unl hg
    unfold multiSelect
    split
    · exact fun h => Option.noConfusion h
    · have hne := selectLoopAux_ne_none rng entries challen hlen lock he hch1 hch
        (otpw_multi - 0) ⟨[], 0, [], [], hbuf, 0⟩ hblen (Nat.le_refl _)
        (by simpa using hg)
      cases hsl : selectLoop rng entries (challen + hlen) challen hlen lock
          ⟨[], 0, [], [], hbuf, 0⟩ with
      | none => exact absurd hsl hne
      | some s2 =>
        exact fun h => Option.noConfusion h
  rcases rl with t | _ | _
  · exact key t (t.length != challen) (by simpa [lockTarget] using hgood)
  · exact key lockInit false (by simpa [lockTarget] using hgood)
  · exact fun h => Option.noConfusion h

set_option maxRecDepth 4000 in
/-- Witness for the amended C10 at a concrete table with 10 acceptable
rows. -/
theorem c10_witness :
    multiPhase rngZero 10 3 12 hbufLocked 10 (.ok lockAAA) [] ≠ none :=
  c10_terminates_with_enough_good rngZero 10 3 12 hbufLocked 10 (.ok lockAAA) []
    (by decide) (by decide) (by decide) (by decide) (by decide)
